import Mathlib

/-!
Verification of the go-promise library.

The development shallowly embeds the library's three parts:
  * the Promise core (`Promise`, `NewPromise`, `Then`, `Catch`, `Finally`
    and the `resolve`/`reject`/`finally` signals handed to the executor),
  * the process-wide completion tracker (`wg` in sync.go, read by
    `WaitForPromises`),
  * the four combinators of static.go (`All`, `Race`, `AllSettled`, `Any`).

Go closures stored in the observer slots are represented symbolically by
the inductive `Cb`, which records exactly the closure shapes the library
can build; running a callback yields the observable invocation events.
The executor's concurrent calls are modelled as a sequence of trace
operations applied to the promise state; each combinator's executor is
modelled as a state machine folded over the settlement events of its
input promises, in an arbitrary interleaving order.
-/

/-- Callback values storable in a Promise's observer slots.  A Go closure
is represented by its provenance: a user-supplied handler (tagged by an
id), a combinator-installed handler (combinator id and input index), or
one of the two wrapper shapes that the `Finally` method builds — a
wrapper around a previously installed handler, or a stand-alone wrapper
when the slot was empty. -/
inductive Cb where
  | user (id : Nat)
  | comb (cid : Nat) (idx : Nat)
  | afterFin (inner : Cb) (fid : Nat)
  | onlyFin (fid : Nat)
deriving DecidableEq

/-- Promise struct (promise.go): three observer slots guarded by a mutex.
The source field names are `then`, `catch` and `finally`; those are
reserved words in Lean, so the fields carry a trailing underscore.  The
`finally_` slot holds a nullary user callback (a `func()` in Go),
identified by its tag. -/
structure Promise where
  then_ : Option Cb := none
  catch_ : Option Cb := none
  finally_ : Option Nat := none
deriving DecidableEq

/-- NewPromise (promise.go) allocates a promise with all three observer
slots empty; it also performs `wg.Add(1)`, which the trace semantics
`initState` accounts for. -/
def NewPromise : Promise := {}

variable {T E : Type}

/-- Observable events: which handler ran, and with which payload.
`thenUser`/`thenComb` are success-observer invocations,
`catchUser`/`catchComb` are failure-observer invocations, and `finRun`
records a nullary finally-callback running. -/
inductive Ev (T E : Type) where
  | thenUser (id : Nat) (v : T)
  | thenComb (cid : Nat) (idx : Nat) (v : T)
  | catchUser (id : Nat) (e : E)
  | catchComb (cid : Nat) (idx : Nat) (e : E)
  | finRun (fid : Nat)
deriving DecidableEq

/-- Running a stored success callback with a value: a `Finally` wrapper
runs the wrapped handler first and then the finally callback, exactly as
the closure built in promise.go does. -/
def runThenCb : Cb → T → List (Ev T E)
  | Cb.user id, v => [Ev.thenUser id v]
  | Cb.comb cid idx, v => [Ev.thenComb cid idx v]
  | Cb.afterFin inner fid, v => runThenCb inner v ++ [Ev.finRun fid]
  | Cb.onlyFin fid, _ => [Ev.finRun fid]

/-- Running a stored failure callback with an error. -/
def runCatchCb : Cb → E → List (Ev T E)
  | Cb.user id, e => [Ev.catchUser id e]
  | Cb.comb cid idx, e => [Ev.catchComb cid idx e]
  | Cb.afterFin inner fid, e => runCatchCb inner e ++ [Ev.finRun fid]
  | Cb.onlyFin fid, _ => [Ev.finRun fid]

/-- Then (promise.go): under the mutex, store the handler in the `then`
slot, overwriting any previous value; the Go method returns its
receiver, which the functional model reflects by returning the updated
promise used for further chaining. -/
def Promise.Then (p : Promise) (cb : Cb) : Promise := { p with then_ := some cb }

/-- Catch (promise.go): under the mutex, store the handler in the
`catch` slot, overwriting any previous value. -/
def Promise.Catch (p : Promise) (cb : Cb) : Promise := { p with catch_ := some cb }

/-- Finally (promise.go): under the mutex, read the current `then` and
`catch` slots and overwrite both with wrappers that run the old handler
(when present) followed by the finally handler `fid`.  The third field
`finally_` is not written. -/
def Promise.Finally (p : Promise) (fid : Nat) : Promise :=
  { p with
    then_ := some (match p.then_ with
      | some old => Cb.afterFin old fid
      | none => Cb.onlyFin fid),
    catch_ := some (match p.catch_ with
      | some old => Cb.afterFin old fid
      | none => Cb.onlyFin fid) }

/-- The `resolve` closure built by NewPromise: under the mutex, if a
then-handler is stored, launch it with the value and perform one
`wg.Done()` when it finishes; otherwise do nothing.  The result is the
list of invocation events together with the number of `wg.Done` calls. -/
def resolveRun (p : Promise) (v : T) : List (Ev T E) × Nat :=
  match p.then_ with
  | some cb => (runThenCb cb v, 1)
  | none => ([], 0)

/-- The `reject` closure built by NewPromise, symmetric to `resolveRun`
against the `catch` slot. -/
def rejectRun (p : Promise) (e : E) : List (Ev T E) × Nat :=
  match p.catch_ with
  | some cb => (runCatchCb cb e, 1)
  | none => ([], 0)

/-- The `finally` closure built by NewPromise, against the `finally_`
slot. -/
def finallySigRun (p : Promise) : List (Ev T E) × Nat :=
  match p.finally_ with
  | some fid => ([Ev.finRun fid], 1)
  | none => ([], 0)

/-- Trace operations on one promise: the registration methods callable
by consumers, and the three settlement signals callable by the
executor. -/
inductive POp (T E : Type) where
  | thenOp (cb : Cb)
  | catchOp (cb : Cb)
  | finallyOp (fid : Nat)
  | resolveOp (v : T)
  | rejectOp (e : E)
  | finallySig
deriving DecidableEq

/-- State of one promise together with the global observables: the
events emitted so far and this promise's contribution to the wait-group
counter. -/
structure PState (T E : Type) where
  p : Promise
  events : List (Ev T E)
  wg : Int
deriving DecidableEq

/-- One trace operation applied to the promise state.  Settlement
signals append the invocation events of the currently stored handler and
subtract the matching `wg.Done` count. -/
def pstep (s : PState T E) : POp T E → PState T E
  | POp.thenOp cb => { s with p := s.p.Then cb }
  | POp.catchOp cb => { s with p := s.p.Catch cb }
  | POp.finallyOp fid => { s with p := s.p.Finally fid }
  | POp.resolveOp v =>
      { s with events := s.events ++ (resolveRun (E := E) s.p v).1,
               wg := s.wg - (resolveRun (E := E) s.p v).2 }
  | POp.rejectOp e =>
      { s with events := s.events ++ (rejectRun (T := T) s.p e).1,
               wg := s.wg - (rejectRun (T := T) s.p e).2 }
  | POp.finallySig =>
      { s with events := s.events ++ (finallySigRun (T := T) (E := E) s.p).1,
               wg := s.wg - (finallySigRun (T := T) (E := E) s.p).2 }

/-- State right after `NewPromise`: empty slots, no events, and the
`wg.Add(1)` performed by the constructor. -/
def initState : PState T E := { p := NewPromise, events := [], wg := 1 }

/-- A lifecycle of one promise: NewPromise followed by a sequence of
registration calls and executor signals, in the order fixed by the
schedule under consideration. -/
def runOps (ops : List (POp T E)) : PState T E := List.foldl pstep initState ops

/-- WaitForPromises (sync.go) blocks until the wait-group counter is
zero; in a quiescent final state it returns exactly when the counter is
zero. -/
def WaitForPromisesReturns (wg : Int) : Bool := wg == 0

/-- Success-observer invocations. -/
def Ev.isSuccessInv : Ev T E → Bool
  | Ev.thenUser _ _ => true
  | Ev.thenComb _ _ _ => true
  | _ => false

/-- Failure-observer invocations. -/
def Ev.isFailInv : Ev T E → Bool
  | Ev.catchUser _ _ => true
  | Ev.catchComb _ _ _ => true
  | _ => false

/-- Events in which a caller-registered (non-combinator) callback ran. -/
def Ev.isUserHandler : Ev T E → Bool
  | Ev.thenUser _ _ => true
  | Ev.catchUser _ _ => true
  | Ev.finRun _ => true
  | _ => false

def POp.isResolve : POp T E → Bool
  | POp.resolveOp _ => true
  | _ => false

def POp.isReject : POp T E → Bool
  | POp.rejectOp _ => true
  | _ => false

/-- Settlement calls of the executor through resolve or reject. -/
def POp.isSettle : POp T E → Bool
  | POp.resolveOp _ => true
  | POp.rejectOp _ => true
  | _ => false

/-- Operations that write the `catch` slot (`Catch`, and `Finally`,
which installs a wrapper there). -/
def POp.setsCatchSlot : POp T E → Bool
  | POp.catchOp _ => true
  | POp.finallyOp _ => true
  | _ => false

def POp.isFinallySig : POp T E → Bool
  | POp.finallySig => true
  | _ => false

/-- Running a success callback produces at most one success-observer
invocation and no failure-observer invocations: the `Finally` wrappers
add only `finRun` events around the single wrapped handler. -/
theorem runThenCb_counts (cb : Cb) (v : T) :
    (runThenCb (E := E) cb v).countP Ev.isSuccessInv ≤ 1 ∧
    (runThenCb (E := E) cb v).countP Ev.isFailInv = 0 := by
  induction cb with
  | user id => simp [runThenCb, Ev.isSuccessInv, Ev.isFailInv]
  | comb cid idx => simp [runThenCb, Ev.isSuccessInv, Ev.isFailInv]
  | afterFin inner fid ih =>
      simpa [runThenCb, List.countP_append, Ev.isSuccessInv, Ev.isFailInv] using ih
  | onlyFin fid => simp [runThenCb, Ev.isSuccessInv, Ev.isFailInv]

/-- Symmetric count bound for failure callbacks. -/
theorem runCatchCb_counts (cb : Cb) (e : E) :
    (runCatchCb (T := T) cb e).countP Ev.isFailInv ≤ 1 ∧
    (runCatchCb (T := T) cb e).countP Ev.isSuccessInv = 0 := by
  induction cb with
  | user id => simp [runCatchCb, Ev.isSuccessInv, Ev.isFailInv]
  | comb cid idx => simp [runCatchCb, Ev.isSuccessInv, Ev.isFailInv]
  | afterFin inner fid ih =>
      simpa [runCatchCb, List.countP_append, Ev.isSuccessInv, Ev.isFailInv] using ih
  | onlyFin fid => simp [runCatchCb, Ev.isSuccessInv, Ev.isFailInv]

/-- One trace operation adds at most one success-observer invocation,
and only when it is a resolve call; symmetrically for failures. -/
theorem pstep_event_counts (s : PState T E) (op : POp T E) :
    (pstep s op).events.countP Ev.isSuccessInv ≤
      s.events.countP Ev.isSuccessInv + (if POp.isResolve op then 1 else 0) ∧
    (pstep s op).events.countP Ev.isFailInv ≤
      s.events.countP Ev.isFailInv + (if POp.isReject op then 1 else 0) := by
  cases op with
  | thenOp cb => simp [pstep, POp.isResolve, POp.isReject]
  | catchOp cb => simp [pstep, POp.isResolve, POp.isReject]
  | finallyOp fid => simp [pstep, POp.isResolve, POp.isReject]
  | resolveOp v =>
      simp only [pstep, POp.isResolve, POp.isReject, List.countP_append, if_pos, if_neg]
      cases h : s.p.then_ with
      | none => simp [resolveRun, h]
      | some cb =>
          have hc := runThenCb_counts (E := E) cb v
          simp [resolveRun, h]
          exact ⟨hc.1, by simpa using hc.2⟩
  | rejectOp e =>
      simp only [pstep, POp.isResolve, POp.isReject, List.countP_append, if_pos, if_neg]
      cases h : s.p.catch_ with
      | none => simp [rejectRun, h]
      | some cb =>
          have hc := runCatchCb_counts (T := T) cb e
          simp [rejectRun, h]
          exact ⟨by simpa using hc.2, hc.1⟩
  | finallySig =>
      simp only [pstep, POp.isResolve, POp.isReject, List.countP_append]
      cases h : s.p.finally_ with
      | none => simp [finallySigRun, h]
      | some fid => simp [finallySigRun, h, Ev.isSuccessInv, Ev.isFailInv]

/-- Over a whole trace, success-observer invocations are bounded by the
number of resolve calls and failure-observer invocations by the number
of reject calls. -/
theorem runOps_event_counts (ops : List (POp T E)) (s : PState T E) :
    (List.foldl pstep s ops).events.countP Ev.isSuccessInv ≤
      s.events.countP Ev.isSuccessInv + ops.countP POp.isResolve ∧
    (List.foldl pstep s ops).events.countP Ev.isFailInv ≤
      s.events.countP Ev.isFailInv + ops.countP POp.isReject := by
  induction ops generalizing s with
  | nil => simp
  | cons op ops ih =>
      have h1 := pstep_event_counts s op
      have h2 := ih (pstep s op)
      simp only [List.foldl_cons, List.countP_cons] at h2 ⊢
      constructor
      · rcases h2 with ⟨h2a, _⟩
        rcases h1 with ⟨h1a, _⟩
        cases hop : POp.isResolve op <;> simp [hop] at h1a ⊢ <;> omega
      · rcases h2 with ⟨_, h2b⟩
        rcases h1 with ⟨_, h1b⟩
        cases hop : POp.isReject op <;> simp [hop] at h1b ⊢ <;> omega

/-- Resolve calls plus reject calls make up exactly the settlement
calls of a trace. -/
theorem countP_resolve_add_reject (ops : List (POp T E)) :
    ops.countP POp.isResolve + ops.countP POp.isReject = ops.countP POp.isSettle := by
  induction ops with
  | nil => simp
  | cons op ops ih =>
      cases op <;>
        simp [List.countP_cons, POp.isResolve, POp.isReject, POp.isSettle, ih] <;> omega

/-- Trace used to refute the mutual-exclusion claim: both observers are
registered, then the executor calls resolve and afterwards reject. -/
def bothSettleOps : List (POp Nat String) :=
  [POp.thenOp (Cb.user 0), POp.catchOp (Cb.user 1),
   POp.resolveOp 5, POp.rejectOp "boom"]

/-- Trace used to refute the exactly-once claim: the executor calls
resolve twice with a success-observer registered. -/
def doubleResolveOps : List (POp Nat String) :=
  [POp.thenOp (Cb.user 0), POp.resolveOp 5, POp.resolveOp 5]

/-- C1 fails as stated on the code: resolve and reject only check
whether an observer is stored, not whether the promise already settled.
With both observers registered, an executor calling resolve and then
reject produces one success-observer invocation AND one failure-observer
invocation; and calling resolve twice delivers the settlement to the
success-observer twice, not exactly once. -/
theorem resolve_reject_both_deliver_cex :
    ((runOps bothSettleOps).events.countP Ev.isSuccessInv = 1 ∧
     (runOps bothSettleOps).events.countP Ev.isFailInv = 1) ∧
    (runOps doubleResolveOps).events.countP Ev.isSuccessInv = 2 := by
  decide

/-- C1 (amended): the exclusive lock's check is only an
observer-presence check, so mutual exclusion of resolve and reject holds
exactly for correctly-behaved executors.  For every trace in which the
executor makes at most one resolve/reject call in total, at most one
success-observer invocation and at most one failure-observer invocation
occur, and a success-observer invocation and a failure-observer
invocation never both occur. -/
theorem single_settlement_delivery (T E : Type) (ops : List (POp T E))
    (h : ops.countP POp.isSettle ≤ 1) :
    (runOps ops).events.countP Ev.isSuccessInv ≤ 1 ∧
    (runOps ops).events.countP Ev.isFailInv ≤ 1 ∧
    ((runOps ops).events.countP Ev.isSuccessInv = 0 ∨
     (runOps ops).events.countP Ev.isFailInv = 0) := by
  have hc := runOps_event_counts ops (initState (T := T) (E := E))
  have hsum := countP_resolve_add_reject ops
  have hinit : (initState (T := T) (E := E)).events = [] := rfl
  rw [runOps] at *
  rw [hinit] at hc
  simp only [List.countP_nil, Nat.zero_add] at hc
  omega

/-- Witness for the amended C1 at a concrete trace with exactly one
settlement call. -/
theorem single_settlement_delivery_witness :
    (runOps [POp.thenOp (Cb.user 0), POp.resolveOp (5 : Nat),
             POp.thenOp (T := Nat) (E := String) (Cb.user 2)]).events.countP
        Ev.isSuccessInv ≤ 1 ∧
    (runOps [POp.thenOp (Cb.user 0), POp.resolveOp (5 : Nat),
             POp.thenOp (T := Nat) (E := String) (Cb.user 2)]).events.countP
        Ev.isFailInv ≤ 1 ∧
    ((runOps [POp.thenOp (Cb.user 0), POp.resolveOp (5 : Nat),
              POp.thenOp (T := Nat) (E := String) (Cb.user 2)]).events.countP
        Ev.isSuccessInv = 0 ∨
     (runOps [POp.thenOp (Cb.user 0), POp.resolveOp (5 : Nat),
              POp.thenOp (T := Nat) (E := String) (Cb.user 2)]).events.countP
        Ev.isFailInv = 0) :=
  single_settlement_delivery Nat String
    [POp.thenOp (Cb.user 0), POp.resolveOp 5, POp.thenOp (Cb.user 2)] (by decide)

/-- C2: in the attach-after-resolve ordering — NewPromise, then the
executor's resolve(v) completing, then Then(h) — the resolve call finds
the `then` slot empty and does nothing, and the later registration only
stores the handler; so the value is never delivered to the handler, and
this outcome is the same on every run once that ordering is fixed (the
model is a function of the trace). -/
theorem attach_after_resolve_never_delivers (T E : Type) (v : T) (hid : Nat) :
    (runOps (T := T) (E := E)
      [POp.resolveOp v, POp.thenOp (Cb.user hid)]).events = [] ∧
    (runOps (T := T) (E := E)
      [POp.resolveOp v, POp.thenOp (Cb.user hid)]).wg = 1 := by
  constructor <;> rfl

/-- Auxiliary invariant for C4: a trace that never writes the `catch`
slot, never resolves and never signals finally leaves the events, the
wait-group counter and the empty `catch` slot untouched — every reject
call finds no failure-observer and is dropped. -/
theorem runOps_no_catch_aux (ops : List (POp T E)) (s : PState T E)
    (hs : s.p.catch_ = none)
    (hops : ops.all (fun op =>
      !POp.setsCatchSlot op && !POp.isResolve op && !POp.isFinallySig op) = true) :
    (List.foldl pstep s ops).events = s.events ∧
    (List.foldl pstep s ops).wg = s.wg ∧
    (List.foldl pstep s ops).p.catch_ = none := by
  induction ops generalizing s with
  | nil => exact ⟨rfl, rfl, hs⟩
  | cons op ops ih =>
      rw [List.all_cons, Bool.and_eq_true, Bool.and_eq_true, Bool.and_eq_true] at hops
      obtain ⟨⟨⟨h1, h2⟩, h3⟩, hrest⟩ := hops
      cases op with
      | thenOp cb => exact ih { s with p := s.p.Then cb } hs hrest
      | catchOp cb => simp [POp.setsCatchSlot] at h1
      | finallyOp fid => simp [POp.setsCatchSlot] at h1
      | resolveOp v => simp [POp.isResolve] at h2
      | finallySig => simp [POp.isFinallySig] at h3
      | rejectOp e =>
          have hstep : pstep s (POp.rejectOp e) = s := by
            simp [pstep, rejectRun, hs]
          rw [List.foldl_cons, hstep]
          exact ih s hs hrest

/-- C4: a settlement with no matching observer runs no handler and
never decrements the completion tracker — `resolveRun` and `rejectRun`
with an empty slot produce no events and no `wg.Done`.  Consequently a
promise whose trace never attaches a Catch (nor a Finally wrapper) and
whose executor only rejects keeps its wait-group contribution at 1, so
`WaitForPromises` never returns. -/
theorem unobserved_settlement_leaks (T E : Type) (p : Promise) (v : T) (e : E)
    (ops : List (POp T E))
    (hthen : p.then_ = none) (hcatch : p.catch_ = none)
    (hops : ops.all (fun op =>
      !POp.setsCatchSlot op && !POp.isResolve op && !POp.isFinallySig op) = true) :
    resolveRun (E := E) p v = ([], 0) ∧
    rejectRun (T := T) p e = ([], 0) ∧
    (runOps ops).events = [] ∧
    (runOps ops).wg = 1 ∧
    WaitForPromisesReturns (runOps ops).wg = false := by
  have haux := runOps_no_catch_aux ops (initState (T := T) (E := E)) rfl hops
  rw [runOps]
  refine ⟨by simp [resolveRun, hthen], by simp [rejectRun, hcatch],
    haux.1, haux.2.1, ?_⟩
  rw [haux.2.1]
  rfl

/-- Witness for C4: a fresh promise whose executor rejects with no Catch
ever attached. -/
theorem unobserved_settlement_leaks_witness :
    resolveRun (E := String) NewPromise (5 : Nat) = ([], 0) ∧
    rejectRun (T := Nat) NewPromise "boom" = ([], 0) ∧
    (runOps [POp.rejectOp (T := Nat) "boom"]).events = [] ∧
    (runOps [POp.rejectOp (T := Nat) "boom"]).wg = 1 ∧
    WaitForPromisesReturns (runOps [POp.rejectOp (T := Nat) "boom"]).wg = false :=
  unobserved_settlement_leaks Nat String NewPromise 5 "boom"
    [POp.rejectOp "boom"] rfl rfl (by decide)

/-- C8: `Then` stores its handler as the success-observer, replacing any
previous one, and leaves the rest of the promise unchanged (the Go
method returns its receiver, so chaining continues on the same promise);
`Then(h1)` then `Then(h2)` leaves `h2` as the sole success-observer; and
calling `Finally(f)` on a fresh promise before `Then(h)` leaves `h`
stored unwrapped, so on the success path only `h` runs and the finally
handler `f` never runs. -/
theorem then_replaces_and_finally_before_then_drops (T E : Type)
    (p : Promise) (cb1 cb2 : Cb) (hid fid : Nat) (v : T) :
    (p.Then cb1).then_ = some cb1 ∧
    (p.Then cb1).catch_ = p.catch_ ∧
    ((p.Then cb1).Then cb2).then_ = some cb2 ∧
    ((NewPromise.Finally fid).Then (Cb.user hid)).then_ = some (Cb.user hid) ∧
    resolveRun (E := E) ((NewPromise.Finally fid).Then (Cb.user hid)) v
      = ([Ev.thenUser hid v], 1) :=
  ⟨rfl, rfl, rfl, rfl, rfl⟩

/-- Every trace operation leaves the `finally_` field of the promise
unchanged: no public operation writes it (the `Finally` method rewrites
the `then` and `catch` slots instead). -/
theorem pstep_finally_eq (s : PState T E) (op : POp T E) :
    (pstep s op).p.finally_ = s.p.finally_ := by
  cases op <;> rfl

/-- C9: in every state reachable by any trace of operations from
NewPromise, the completion-observer slot `finally_` is still `none`, so
an executor that calls its finally signal runs no handler and never
decrements the completion tracker. -/
theorem finally_slot_never_set (T E : Type) (ops : List (POp T E)) :
    (runOps ops).p.finally_ = none ∧
    finallySigRun (T := T) (E := E) (runOps ops).p = ([], 0) := by
  have key : ∀ (l : List (POp T E)) (s : PState T E),
      (List.foldl pstep s l).p.finally_ = s.p.finally_ := by
    intro l
    induction l with
    | nil => intro s; rfl
    | cons op l ih =>
        intro s
        rw [List.foldl_cons, ih, pstep_finally_eq]
  have hnone : (runOps ops).p.finally_ = none := by
    rw [runOps, key]
    rfl
  exact ⟨hnone, by rw [finallySigRun, hnone]⟩

/-- Registration loop shared by the four combinators in static.go: for
each input promise, call `Then` and then `Catch` with the combinator's
callbacks for that input index, overwriting both observer slots. -/
def registerComb (cid : Nat) (inputs : List Promise) : List Promise :=
  List.map (fun pr => (pr.2.Then (Cb.comb cid pr.1)).Catch (Cb.comb cid pr.1))
    inputs.enum

/-- C10: after a combinator's registration loop runs, every input
promise carries the combinator's callbacks in both observer slots —
whatever the caller had registered there before is overwritten — and any
later settlement of the input invokes only the combinator's callback,
never a previously attached user handler. -/
theorem combinator_registration_overwrites (T E : Type) (cid : Nat)
    (inputs : List Promise) (q : Promise) (hq : q ∈ registerComb cid inputs)
    (v : T) (e : E) :
    (∃ i, q.then_ = some (Cb.comb cid i) ∧ q.catch_ = some (Cb.comb cid i)) ∧
    (resolveRun (E := E) q v).1.all (fun ev => !Ev.isUserHandler ev) = true ∧
    (rejectRun (T := T) q e).1.all (fun ev => !Ev.isUserHandler ev) = true := by
  rw [registerComb, List.mem_map] at hq
  obtain ⟨pr, hmem, hq⟩ := hq
  subst hq
  refine ⟨⟨pr.1, rfl, rfl⟩, ?_, ?_⟩ <;>
    simp [resolveRun, rejectRun, Promise.Then, Promise.Catch, runThenCb,
      runCatchCb, Ev.isUserHandler]

/-- Witness for C10: one input promise with user handlers attached
before registration; after registration both slots hold the
combinator's callbacks and settlements run no user handler. -/
theorem combinator_registration_overwrites_witness :
    (∃ i, (Promise.mk (some (Cb.comb 3 0)) (some (Cb.comb 3 0)) none).then_
        = some (Cb.comb 3 i) ∧
      (Promise.mk (some (Cb.comb 3 0)) (some (Cb.comb 3 0)) none).catch_
        = some (Cb.comb 3 i)) ∧
    (resolveRun (E := String)
      (Promise.mk (some (Cb.comb 3 0)) (some (Cb.comb 3 0)) none)
      (5 : Nat)).1.all (fun ev => !Ev.isUserHandler ev) = true ∧
    (rejectRun (T := Nat)
      (Promise.mk (some (Cb.comb 3 0)) (some (Cb.comb 3 0)) none)
      "boom").1.all (fun ev => !Ev.isUserHandler ev) = true :=
  combinator_registration_overwrites Nat String 3
    [{ then_ := some (Cb.user 7), catch_ := some (Cb.user 8) }]
    (Promise.mk (some (Cb.comb 3 0)) (some (Cb.comb 3 0)) none) (by decide) 5 "boom"

/-- Settlement of one input promise as observed by a combinator's
callbacks: the input either fulfilled with a value or rejected with an
error. -/
inductive Settle (T E : Type) where
  | ok (v : T)
  | err (e : E)
deriving DecidableEq

def Settle.isOk : Settle T E → Bool
  | Settle.ok _ => true
  | Settle.err _ => false

/-- Error values a combinator can pass to its aggregate reject:
an input's error forwarded verbatim (`All`, `Race`), a structural error
built with a constant message for zero inputs (`Race`, `Any`), or the
aggregate error of `Any` wrapping the collected per-index errors. -/
inductive AggErr (E : Type) where
  | fromInput (e : E)
  | structural (msg : String)
  | aggregate (msg : String) (errs : List (Option E))
deriving DecidableEq

/-- A call the combinator's executor makes on its own promise: resolve
with a result of type `R` or reject with an error. -/
inductive AggCall (R E : Type) where
  | res (r : R)
  | rej (e : AggErr E)
deriving DecidableEq

variable {β : Type}

/-- Writing one settlement event into a slot array: `g` says whether
this event writes this combinator's array and with which entry. -/
def slotUpd (g : Nat × Settle T E → Option β) (r : List β)
    (ev : Nat × Settle T E) : List β :=
  match g ev with
  | some b => r.set ev.1 b
  | none => r

theorem slotUpd_length (g : Nat × Settle T E → Option β) (r : List β)
    (ev : Nat × Settle T E) : (slotUpd g r ev).length = r.length := by
  rw [slotUpd]
  cases g ev <;> simp

theorem foldl_slotUpd_length (g : Nat × Settle T E → Option β)
    (evs : List (Nat × Settle T E)) (r : List β) :
    (List.foldl (slotUpd g) r evs).length = r.length := by
  induction evs generalizing r with
  | nil => rfl
  | cons x xs ih => rw [List.foldl_cons, ih, slotUpd_length]

theorem foldl_slotUpd_get_notMem (g : Nat × Settle T E → Option β)
    (evs : List (Nat × Settle T E)) (r : List β) (i : Nat)
    (hi : i ∉ evs.map Prod.fst) :
    (List.foldl (slotUpd g) r evs)[i]? = r[i]? := by
  induction evs generalizing r with
  | nil => rfl
  | cons x xs ih =>
      rw [List.map_cons, List.mem_cons] at hi
      push_neg at hi
      rw [List.foldl_cons, ih _ hi.2]
      rw [slotUpd]
      cases g x with
      | none => rfl
      | some b => exact List.getElem?_set_ne (by exact fun h => hi.1 h.symm)

theorem foldl_slotUpd_get_mem (g : Nat × Settle T E → Option β)
    (evs : List (Nat × Settle T E)) (r : List β)
    (hnd : (evs.map Prod.fst).Nodup) (ev : Nat × Settle T E) (hev : ev ∈ evs)
    (b : β) (hg : g ev = some b) (hlt : ev.1 < r.length) :
    (List.foldl (slotUpd g) r evs)[ev.1]? = some b := by
  induction evs generalizing r with
  | nil => cases hev
  | cons x xs ih =>
      rw [List.map_cons, List.nodup_cons] at hnd
      rw [List.foldl_cons]
      rcases List.mem_cons.mp hev with heq | hmem
      · subst heq
        rw [foldl_slotUpd_get_notMem g xs _ _ hnd.1]
        rw [slotUpd, hg]
        exact List.getElem?_set_eq_of_lt b hlt
      · exact ih (slotUpd g r x) hnd.2 hmem (by rw [slotUpd_length]; exact hlt)

namespace All

/-- Aggregate state of the `All` executor (static.go): the shared
results array (a slot per input, `none` for Go's zero value before the
slot is written), the shared remaining-count — an `int` in Go, so it can
go below zero after the aggregate has rejected — and the calls the
executor has made on its own promise's resolve/reject. -/
structure State (T E : Type) where
  results : List (Option T)
  remaining : Int
  calls : List (AggCall (List (Option T)) E)
deriving DecidableEq

/-- One settlement of input `ev.1` processed by the callbacks `All`
registered on it: the Then-callback stores the value at the input's
index, decrements `remaining` and resolves with the full array when it
reaches zero; the Catch-callback rejects with the input's error if
`remaining` is still positive, setting it to zero, and otherwise does
nothing. -/
def step (s : State T E) (ev : Nat × Settle T E) : State T E :=
  match ev.2 with
  | Settle.ok v =>
      if s.remaining - 1 = 0 then
        { results := s.results.set ev.1 (some v), remaining := s.remaining - 1,
          calls := s.calls ++ [AggCall.res (s.results.set ev.1 (some v))] }
      else
        { results := s.results.set ev.1 (some v), remaining := s.remaining - 1,
          calls := s.calls }
  | Settle.err e =>
      if 0 < s.remaining then
        { s with remaining := 0,
                 calls := s.calls ++ [AggCall.rej (AggErr.fromInput e)] }
      else s

/-- State set up by the `All` executor before registering on the
inputs: `make([]T, len)`, `remaining := len`, no aggregate call yet. -/
def init (n : Nat) : State T E :=
  { results := List.replicate n none, remaining := (n : Int), calls := [] }

/-- The `All` executor on `n` inputs whose settlements arrive in the
order given by `events`: with zero inputs it resolves immediately with
the empty array, otherwise it folds the registered callbacks over the
settlement schedule. -/
def run (n : Nat) (events : List (Nat × Settle T E)) : State T E :=
  if n = 0 then { results := [], remaining := 0, calls := [AggCall.res []] }
  else List.foldl step (init n) events

/-- Which settlements write the results array: exactly the fulfilled
ones, at their input's index. -/
def g : Nat × Settle T E → Option (Option T)
  | (_, Settle.ok v) => some (some v)
  | (_, Settle.err _) => none

theorem all_step_results (s : State T E) (ev : Nat × Settle T E) :
    (step s ev).results = slotUpd g s.results ev := by
  obtain ⟨i, st⟩ := ev
  cases st with
  | ok v =>
      simp only [step, slotUpd, g]
      split <;> rfl
  | err e =>
      simp only [step, slotUpd, g]
      split <;> rfl

theorem all_foldl_results (evs : List (Nat × Settle T E)) (s : State T E) :
    (List.foldl step s evs).results = List.foldl (slotUpd g) s.results evs := by
  induction evs generalizing s with
  | nil => rfl
  | cons x xs ih =>
      rw [List.foldl_cons, List.foldl_cons, ih, all_step_results]

/-- While the processed settlements are all fulfillments and more than
their number is outstanding, the aggregate makes no call and `remaining`
counts down exactly. -/
theorem all_noFire (evs : List (Nat × Settle T E)) (s : State T E) (k : Int)
    (hok : ∀ p ∈ evs, p.2.isOk = true) (hk : 1 ≤ k)
    (hr : s.remaining = (evs.length : Int) + k) :
    (List.foldl step s evs).calls = s.calls ∧
    (List.foldl step s evs).remaining = k := by
  induction evs generalizing s with
  | nil =>
      refine ⟨rfl, ?_⟩
      simpa using hr
  | cons x xs ih =>
      obtain ⟨i, st⟩ := x
      cases st with
      | err e =>
          have := hok (i, Settle.err e) (List.mem_cons_self _ _)
          simp [Settle.isOk] at this
      | ok v =>
          have hlen : s.remaining = (xs.length : Int) + k + 1 := by
            rw [hr]
            push_cast [List.length_cons]
            ring
          have hne : ¬(s.remaining - 1 = 0) := by omega
          rw [List.foldl_cons]
          have hstep : step s (i, Settle.ok v) =
              { results := s.results.set i (some v), remaining := s.remaining - 1,
                calls := s.calls } := by
            simp only [step]
            rw [if_neg hne]
          rw [hstep]
          refine ih _ (fun p hp => hok p (List.mem_cons_of_mem _ hp)) ?_
          show s.remaining - 1 = (xs.length : Int) + k
          omega

/-- When the outstanding count equals the number of incoming
fulfillments, the last one fires the aggregate resolve with the final
results array. -/
theorem all_fire (evs : List (Nat × Settle T E)) (s : State T E)
    (hok : ∀ p ∈ evs, p.2.isOk = true) (hne : evs ≠ [])
    (hr : s.remaining = (evs.length : Int)) :
    (List.foldl step s evs).calls
      = s.calls ++ [AggCall.res (List.foldl step s evs).results] ∧
    (List.foldl step s evs).remaining = 0 := by
  induction evs generalizing s with
  | nil => cases hne rfl
  | cons x xs ih =>
      obtain ⟨i, st⟩ := x
      cases st with
      | err e =>
          have := hok (i, Settle.err e) (List.mem_cons_self _ _)
          simp [Settle.isOk] at this
      | ok v =>
          rw [List.foldl_cons]
          by_cases hxs : xs = []
          · subst hxs
            have h1 : s.remaining - 1 = 0 := by
              rw [hr]
              simp
            have hstep : step s (i, Settle.ok v) =
                { results := s.results.set i (some v), remaining := s.remaining - 1,
                  calls := s.calls ++ [AggCall.res (s.results.set i (some v))] } := by
              simp only [step]
              rw [if_pos h1]
            rw [hstep]
            exact ⟨rfl, h1⟩
          · have hlenpos : 0 < xs.length := List.length_pos.mpr hxs
            have hr' : s.remaining = (xs.length : Int) + 1 := by
              rw [hr]
              push_cast [List.length_cons]
              ring
            have hne1 : ¬(s.remaining - 1 = 0) := by omega
            have hstep : step s (i, Settle.ok v) =
                { results := s.results.set i (some v), remaining := s.remaining - 1,
                  calls := s.calls } := by
              simp only [step]
              rw [if_neg hne1]
            rw [hstep]
            refine ih _ (fun p hp => hok p (List.mem_cons_of_mem _ hp)) hxs ?_
            show s.remaining - 1 = (xs.length : Int)
            omega

/-- Once `remaining` is at or below zero the aggregate never calls
again: later fulfillments only push it further negative and later
rejections fail the positivity check. -/
theorem all_post (evs : List (Nat × Settle T E)) (s : State T E)
    (hr : s.remaining ≤ 0) :
    (List.foldl step s evs).calls = s.calls ∧
    (List.foldl step s evs).remaining ≤ 0 := by
  induction evs generalizing s with
  | nil => exact ⟨rfl, hr⟩
  | cons x xs ih =>
      obtain ⟨i, st⟩ := x
      rw [List.foldl_cons]
      cases st with
      | ok v =>
          have hne : ¬(s.remaining - 1 = 0) := by omega
          have hstep : step s (i, Settle.ok v) =
              { results := s.results.set i (some v), remaining := s.remaining - 1,
                calls := s.calls } := by
            simp only [step]
            rw [if_neg hne]
          rw [hstep]
          refine ih _ ?_
          show s.remaining - 1 ≤ 0
          omega
      | err e =>
          have hng : ¬(0 < s.remaining) := by omega
          have hstep : step s (i, Settle.err e) = s := by
            simp only [step]
            rw [if_neg hng]
          rw [hstep]
          exact ih s hr

end All

/-- Every settlement schedule is either all fulfillments or splits at
its first rejection. -/
theorem settle_first_err (l : List (Nat × Settle T E)) :
    (∀ p ∈ l, p.2.isOk = true) ∨
    ∃ pre j e post, l = pre ++ (j, Settle.err e) :: post ∧
      ∀ p ∈ pre, p.2.isOk = true := by
  induction l with
  | nil =>
      left
      intro p hp
      cases hp
  | cons x xs ih =>
      obtain ⟨i, st⟩ := x
      cases st with
      | err e =>
          exact Or.inr ⟨[], i, e, xs, rfl, fun p hp => absurd hp (List.not_mem_nil p)⟩
      | ok v =>
          rcases ih with hall | ⟨pre, j, e, post, heq, hpre⟩
          · left
            intro p hp
            rcases List.mem_cons.mp hp with h | h
            · rw [h]
              rfl
            · exact hall p h
          · right
            refine ⟨(i, Settle.ok v) :: pre, j, e, post, by rw [heq]; rfl, ?_⟩
            intro p hp
            rcases List.mem_cons.mp hp with h | h
            · rw [h]
              rfl
            · exact hpre p h

/-- Every settlement schedule is either all rejections or splits at its
first fulfillment. -/
theorem settle_first_ok (l : List (Nat × Settle T E)) :
    (∀ p ∈ l, p.2.isOk = false) ∨
    ∃ pre j v post, l = pre ++ (j, Settle.ok v) :: post ∧
      ∀ p ∈ pre, p.2.isOk = false := by
  induction l with
  | nil =>
      left
      intro p hp
      cases hp
  | cons x xs ih =>
      obtain ⟨i, st⟩ := x
      cases st with
      | ok v =>
          exact Or.inr ⟨[], i, v, xs, rfl, fun p hp => absurd hp (List.not_mem_nil p)⟩
      | err e =>
          rcases ih with hall | ⟨pre, j, v, post, heq, hpre⟩
          · left
            intro p hp
            rcases List.mem_cons.mp hp with h | h
            · rw [h]
              rfl
            · exact hall p h
          · right
            refine ⟨(i, Settle.err e) :: pre, j, v, post, by rw [heq]; rfl, ?_⟩
            intro p hp
            rcases List.mem_cons.mp hp with h | h
            · rw [h]
              rfl
            · exact hpre p h

/-- C3: over any complete settlement schedule of `n ≥ 1` inputs (each
input index settles exactly once, in an arbitrary order), `All` resolves
if and only if every input fulfills; when all fulfill it makes exactly
one call — resolve with the results array whose slot `i` holds input
`i`'s fulfilled value; and on a schedule with a rejection it makes
exactly one call — reject with the first rejection's error — and
performs no further aggregate transition while the later settlements are
processed. -/
theorem all_combinator_correct (T E : Type) (n : Nat)
    (events : List (Nat × Settle T E))
    (hn : 0 < n)
    (hlt : ∀ p ∈ events, p.1 < n)
    (hnd : (events.map Prod.fst).Nodup)
    (hfull : events.length = n) :
    ((∀ p ∈ events, p.2.isOk = true) →
       (All.run n events).calls = [AggCall.res (All.run n events).results] ∧
       ∀ i v, (i, Settle.ok v) ∈ events →
         ((All.run n events).results)[i]? = some (some v)) ∧
    (∀ pre j e post, events = pre ++ (j, Settle.err e) :: post →
       (∀ p ∈ pre, p.2.isOk = true) →
       (All.run n events).calls = [AggCall.rej (AggErr.fromInput e)]) ∧
    ((∃ rs, AggCall.res rs ∈ (All.run n events).calls) ↔
       ∀ p ∈ events, p.2.isOk = true) := by
  have hrun : All.run n events = List.foldl All.step (All.init n) events := by
    rw [All.run, if_neg (Nat.pos_iff_ne_zero.mp hn)]
  have hA : (∀ p ∈ events, p.2.isOk = true) →
      (All.run n events).calls = [AggCall.res (All.run n events).results] ∧
      ∀ i v, (i, Settle.ok v) ∈ events →
        ((All.run n events).results)[i]? = some (some v) := by
    intro hall
    have hnil : events ≠ [] := by
      intro h
      rw [h] at hfull
      simp at hfull
      omega
    have hfire := All.all_fire events (All.init n) hall hnil
      (by show ((n : Nat) : Int) = (events.length : Int); rw [hfull])
    constructor
    · rw [hrun, hfire.1]
      rfl
    · intro i v hmem
      rw [hrun, All.all_foldl_results]
      have := foldl_slotUpd_get_mem All.g events (All.init (E := E) n).results hnd
        (i, Settle.ok v) hmem (some v) rfl
        (by simpa [All.init] using hlt _ hmem)
      exact this
  have hB : ∀ pre j e post, events = pre ++ (j, Settle.err e) :: post →
      (∀ p ∈ pre, p.2.isOk = true) →
      (All.run n events).calls = [AggCall.rej (AggErr.fromInput e)] := by
    intro pre j e post hdecomp hpre
    have hklen : pre.length + 1 + post.length = n := by
      rw [hdecomp] at hfull
      simp [List.length_append] at hfull
      omega
    have hpre_run := All.all_noFire pre (All.init n)
      ((n : Int) - (pre.length : Int)) hpre (by omega)
      (by show ((n : Nat) : Int) = (pre.length : Int) + ((n : Int) - (pre.length : Int)); ring)
    set s1 : All.State T E := List.foldl All.step (All.init n) pre with hs1
    have hposrem : 0 < s1.remaining := by
      rw [hpre_run.2]
      omega
    have hstep : All.step s1 (j, Settle.err e) =
        { s1 with
          remaining := 0
          calls := s1.calls ++ [AggCall.rej (AggErr.fromInput e)] } := by
      simp only [All.step]
      rw [if_pos hposrem]
    have hpost := All.all_post post (All.step s1 (j, Settle.err e))
      (by rw [hstep])
    rw [hrun, hdecomp, List.foldl_append, List.foldl_cons, ← hs1, hpost.1, hstep,
      hpre_run.1]
    rfl
  refine ⟨hA, hB, ?_, ?_⟩
  · rintro ⟨rs, hrs⟩
    rcases settle_first_err events with hall | ⟨pre, j, e, post, hdecomp, hpre⟩
    · exact hall
    · rw [hB pre j e post hdecomp hpre] at hrs
      simp at hrs
  · intro hall
    exact ⟨(All.run n events).results, by rw [(hA hall).1]; exact List.mem_singleton_self _⟩

/-- Witness for C3: two inputs fulfilling in reverse index order; `All`
resolves once with the values back in input order. -/
theorem all_combinator_correct_witness :
    ((All.run 2 [((1 : Nat), Settle.ok (2 : Nat)),
        ((0 : Nat), (Settle.ok 1 : Settle Nat String))]).calls
      = [AggCall.res (All.run 2 [((1 : Nat), Settle.ok (2 : Nat)),
          ((0 : Nat), (Settle.ok 1 : Settle Nat String))]).results]) ∧
    ((All.run 2 [((1 : Nat), Settle.ok (2 : Nat)),
        ((0 : Nat), (Settle.ok 1 : Settle Nat String))]).results)[0]?
      = some (some 1) ∧
    ((All.run 2 [((1 : Nat), Settle.ok (2 : Nat)),
        ((0 : Nat), (Settle.ok 1 : Settle Nat String))]).results)[1]?
      = some (some 2) := by
  have h := all_combinator_correct Nat String 2
    [(1, Settle.ok 2), (0, Settle.ok 1)]
    (by decide) (by decide) (by decide) (by decide)
  have hall := h.1 (by decide)
  exact ⟨hall.1, hall.2 0 1 (by decide), hall.2 1 2 (by decide)⟩

/-- PromiseResult (static.go): the settlement record `AllSettled` stores
at each input's index.  Go zero values (the unassigned `Value` field and
the nil `Error` field) are modelled as `none`. -/
structure PromiseResult (T E : Type) where
  Value : Option T
  Error : Option E
  Fulfilled : Bool
deriving DecidableEq

namespace AllSettled

/-- Aggregate state of the `AllSettled` executor: the shared results
array, the shared remaining-count and the aggregate calls made. -/
structure State (T E : Type) where
  results : List (PromiseResult T E)
  remaining : Int
  calls : List (AggCall (List (PromiseResult T E)) E)
deriving DecidableEq

/-- The entry written for one settlement: Then writes the value with
`Fulfilled := true`, Catch writes the error with `Fulfilled := false`. -/
def pr : Settle T E → PromiseResult T E
  | Settle.ok v => { Value := some v, Error := none, Fulfilled := true }
  | Settle.err e => { Value := none, Error := some e, Fulfilled := false }

/-- One settlement processed by the callbacks `AllSettled` registered:
both paths write the entry at the input's index and decrement the same
remaining-count, resolving with the full array when it reaches zero. -/
def step (s : State T E) (ev : Nat × Settle T E) : State T E :=
  if s.remaining - 1 = 0 then
    { results := s.results.set ev.1 (pr ev.2), remaining := s.remaining - 1,
      calls := s.calls ++ [AggCall.res (s.results.set ev.1 (pr ev.2))] }
  else
    { results := s.results.set ev.1 (pr ev.2), remaining := s.remaining - 1,
      calls := s.calls }

/-- State set up by the `AllSettled` executor: `make([]PromiseResult[T],
len)` of zero-value records, `remaining := len`, no call yet. -/
def init (n : Nat) : State T E :=
  { results := List.replicate n { Value := none, Error := none, Fulfilled := false },
    remaining := (n : Int), calls := [] }

/-- The `AllSettled` executor on `n` inputs settling in the order given
by `events`; zero inputs resolve immediately with the empty array. -/
def run (n : Nat) (events : List (Nat × Settle T E)) : State T E :=
  if n = 0 then { results := [], remaining := 0, calls := [AggCall.res []] }
  else List.foldl step (init n) events

/-- Every settlement writes the results array at its input's index. -/
def g : Nat × Settle T E → Option (PromiseResult T E) :=
  fun ev => some (pr ev.2)

theorem allSettled_step_results (s : State T E) (ev : Nat × Settle T E) :
    (step s ev).results = slotUpd g s.results ev := by
  simp only [step, slotUpd, g]
  split <;> rfl

theorem allSettled_foldl_results (evs : List (Nat × Settle T E)) (s : State T E) :
    (List.foldl step s evs).results = List.foldl (slotUpd g) s.results evs := by
  induction evs generalizing s with
  | nil => rfl
  | cons x xs ih =>
      rw [List.foldl_cons, List.foldl_cons, ih, allSettled_step_results]

/-- When the outstanding count equals the number of incoming
settlements, the last settlement fires the aggregate resolve with the
final results array. -/
theorem allSettled_fire (evs : List (Nat × Settle T E)) (s : State T E)
    (hne : evs ≠ []) (hr : s.remaining = (evs.length : Int)) :
    (List.foldl step s evs).calls
      = s.calls ++ [AggCall.res (List.foldl step s evs).results] ∧
    (List.foldl step s evs).remaining = 0 := by
  induction evs generalizing s with
  | nil => cases hne rfl
  | cons x xs ih =>
      rw [List.foldl_cons]
      by_cases hxs : xs = []
      · subst hxs
        have h1 : s.remaining - 1 = 0 := by
          rw [hr]
          simp
        have hstep : step s x =
            { results := s.results.set x.1 (pr x.2), remaining := s.remaining - 1,
              calls := s.calls ++ [AggCall.res (s.results.set x.1 (pr x.2))] } := by
          simp only [step]
          rw [if_pos h1]
        rw [hstep]
        exact ⟨rfl, h1⟩
      · have hlenpos : 0 < xs.length := List.length_pos.mpr hxs
        have hr' : s.remaining = (xs.length : Int) + 1 := by
          rw [hr]
          push_cast [List.length_cons]
          ring
        have hne1 : ¬(s.remaining - 1 = 0) := by omega
        have hstep : step s x =
            { results := s.results.set x.1 (pr x.2), remaining := s.remaining - 1,
              calls := s.calls } := by
          simp only [step]
          rw [if_neg hne1]
        rw [hstep]
        refine ih _ hxs ?_
        show s.remaining - 1 = (xs.length : Int)
        omega

/-- The `AllSettled` step only ever appends resolve calls. -/
theorem foldl_step_no_rej (evs : List (Nat × Settle T E)) (s : State T E)
    (hs : ∀ er, AggCall.rej er ∉ s.calls) :
    ∀ er, AggCall.rej er ∉ (List.foldl step s evs).calls := by
  induction evs generalizing s with
  | nil => exact hs
  | cons x xs ih =>
      rw [List.foldl_cons]
      refine ih _ ?_
      intro er hmem
      simp only [step] at hmem
      split at hmem <;> simp at hmem <;> exact hs er (by simp [hmem])

end AllSettled

namespace Any

/-- Aggregate state of the `Any` executor: the shared per-index error
array, the shared remaining-count and the aggregate calls made. -/
structure State (T E : Type) where
  errors : List (Option E)
  remaining : Int
  calls : List (AggCall T E)
deriving DecidableEq

/-- One settlement processed by the callbacks `Any` registered: the
Then-callback resolves with the value if `remaining` is still positive,
setting it to zero; the Catch-callback records the error at the input's
index, decrements `remaining` and, when it reaches zero, rejects with
the aggregate error wrapping the collected error array. -/
def step (s : State T E) (ev : Nat × Settle T E) : State T E :=
  match ev.2 with
  | Settle.ok v =>
      if 0 < s.remaining then
        { s with
          remaining := 0
          calls := s.calls ++ [AggCall.res v] }
      else s
  | Settle.err e =>
      if s.remaining - 1 = 0 then
        { errors := s.errors.set ev.1 (some e), remaining := s.remaining - 1,
          calls := s.calls ++ [AggCall.rej (AggErr.aggregate "all promises rejected"
            (s.errors.set ev.1 (some e)))] }
      else
        { errors := s.errors.set ev.1 (some e), remaining := s.remaining - 1,
          calls := s.calls }

/-- State set up by the `Any` executor: `make([]error, len)` of nil
errors, `remaining := len`, no call yet. -/
def init (n : Nat) : State T E :=
  { errors := List.replicate n none, remaining := (n : Int), calls := [] }

/-- The `Any` executor on `n` inputs settling in the order given by
`events`; zero inputs reject immediately with the structural error. -/
def run (n : Nat) (events : List (Nat × Settle T E)) : State T E :=
  if n = 0 then
    { errors := [], remaining := 0,
      calls := [AggCall.rej (AggErr.structural "all promises rejected")] }
  else List.foldl step (init n) events

/-- Which settlements write the error array: exactly the rejections, at
their input's index. -/
def g : Nat × Settle T E → Option (Option E)
  | (_, Settle.err e) => some (some e)
  | (_, Settle.ok _) => none

theorem step_errors (s : State T E) (ev : Nat × Settle T E) :
    (step s ev).errors = slotUpd g s.errors ev := by
  obtain ⟨i, st⟩ := ev
  cases st with
  | ok v =>
      simp only [step, slotUpd, g]
      split <;> rfl
  | err e =>
      simp only [step, slotUpd, g]
      split <;> rfl

theorem foldl_step_errors (evs : List (Nat × Settle T E)) (s : State T E) :
    (List.foldl step s evs).errors = List.foldl (slotUpd g) s.errors evs := by
  induction evs generalizing s with
  | nil => rfl
  | cons x xs ih =>
      rw [List.foldl_cons, List.foldl_cons, ih, step_errors]

/-- While the processed settlements are all rejections and more than
their number is outstanding, the aggregate makes no call and `remaining`
counts down exactly. -/
theorem any_noFire (evs : List (Nat × Settle T E)) (s : State T E) (k : Int)
    (herr : ∀ p ∈ evs, p.2.isOk = false) (hk : 1 ≤ k)
    (hr : s.remaining = (evs.length : Int) + k) :
    (List.foldl step s evs).calls = s.calls ∧
    (List.foldl step s evs).remaining = k := by
  induction evs generalizing s with
  | nil =>
      refine ⟨rfl, ?_⟩
      simpa using hr
  | cons x xs ih =>
      obtain ⟨i, st⟩ := x
      cases st with
      | ok v =>
          have := herr (i, Settle.ok v) (List.mem_cons_self _ _)
          simp [Settle.isOk] at this
      | err e =>
          have hlen : s.remaining = (xs.length : Int) + k + 1 := by
            rw [hr]
            push_cast [List.length_cons]
            ring
          have hne : ¬(s.remaining - 1 = 0) := by omega
          rw [List.foldl_cons]
          have hstep : step s (i, Settle.err e) =
              { errors := s.errors.set i (some e), remaining := s.remaining - 1,
                calls := s.calls } := by
            simp only [step]
            rw [if_neg hne]
          rw [hstep]
          refine ih _ (fun p hp => herr p (List.mem_cons_of_mem _ hp)) ?_
          show s.remaining - 1 = (xs.length : Int) + k
          omega

/-- When every incoming settlement is a rejection and the outstanding
count equals their number, the last one fires the aggregate reject with
the final error array. -/
theorem any_fire (evs : List (Nat × Settle T E)) (s : State T E)
    (herr : ∀ p ∈ evs, p.2.isOk = false) (hne : evs ≠ [])
    (hr : s.remaining = (evs.length : Int)) :
    (List.foldl step s evs).calls
      = s.calls ++ [AggCall.rej (AggErr.aggregate "all promises rejected"
          (List.foldl step s evs).errors)] ∧
    (List.foldl step s evs).remaining = 0 := by
  induction evs generalizing s with
  | nil => cases hne rfl
  | cons x xs ih =>
      obtain ⟨i, st⟩ := x
      cases st with
      | ok v =>
          have := herr (i, Settle.ok v) (List.mem_cons_self _ _)
          simp [Settle.isOk] at this
      | err e =>
          rw [List.foldl_cons]
          by_cases hxs : xs = []
          · subst hxs
            have h1 : s.remaining - 1 = 0 := by
              rw [hr]
              simp
            have hstep : step s (i, Settle.err e) =
                { errors := s.errors.set i (some e), remaining := s.remaining - 1,
                  calls := s.calls ++ [AggCall.rej (AggErr.aggregate
                    "all promises rejected" (s.errors.set i (some e)))] } := by
              simp only [step]
              rw [if_pos h1]
            rw [hstep]
            exact ⟨rfl, h1⟩
          · have hlenpos : 0 < xs.length := List.length_pos.mpr hxs
            have hr' : s.remaining = (xs.length : Int) + 1 := by
              rw [hr]
              push_cast [List.length_cons]
              ring
            have hne1 : ¬(s.remaining - 1 = 0) := by omega
            have hstep : step s (i, Settle.err e) =
                { errors := s.errors.set i (some e), remaining := s.remaining - 1,
                  calls := s.calls } := by
              simp only [step]
              rw [if_neg hne1]
            rw [hstep]
            refine ih _ (fun p hp => herr p (List.mem_cons_of_mem _ hp)) hxs ?_
            show s.remaining - 1 = (xs.length : Int)
            omega

/-- Once `remaining` is at or below zero the aggregate never calls
again. -/
theorem any_post (evs : List (Nat × Settle T E)) (s : State T E)
    (hr : s.remaining ≤ 0) :
    (List.foldl step s evs).calls = s.calls ∧
    (List.foldl step s evs).remaining ≤ 0 := by
  induction evs generalizing s with
  | nil => exact ⟨rfl, hr⟩
  | cons x xs ih =>
      obtain ⟨i, st⟩ := x
      rw [List.foldl_cons]
      cases st with
      | ok v =>
          have hng : ¬(0 < s.remaining) := by omega
          have hstep : step s (i, Settle.ok v) = s := by
            simp only [step]
            rw [if_neg hng]
          rw [hstep]
          exact ih s hr
      | err e =>
          have hne : ¬(s.remaining - 1 = 0) := by omega
          have hstep : step s (i, Settle.err e) =
              { errors := s.errors.set i (some e), remaining := s.remaining - 1,
                calls := s.calls } := by
            simp only [step]
            rw [if_neg hne]
          rw [hstep]
          refine ih _ ?_
          show s.remaining - 1 ≤ 0
          omega

end Any

namespace Race

/-- Aggregate state of the `Race` executor: the shared settled flag and
the aggregate calls made. -/
structure State (T E : Type) where
  settled : Bool
  calls : List (AggCall T E)
deriving DecidableEq

/-- One settlement processed by the callbacks `Race` registered: the
first settlement of either kind flips the flag and settles the
aggregate accordingly; all later settlements are discarded. -/
def step (s : State T E) (ev : Nat × Settle T E) : State T E :=
  match ev.2 with
  | Settle.ok v =>
      if s.settled = false then { settled := true, calls := s.calls ++ [AggCall.res v] }
      else s
  | Settle.err e =>
      if s.settled = false then
        { settled := true, calls := s.calls ++ [AggCall.rej (AggErr.fromInput e)] }
      else s

/-- The `Race` executor on `n` inputs settling in the order given by
`events`; zero inputs reject immediately with the structural error. -/
def run (n : Nat) (events : List (Nat × Settle T E)) : State T E :=
  if n = 0 then
    { settled := false,
      calls := [AggCall.rej (AggErr.structural "no promises to race")] }
  else List.foldl step { settled := false, calls := [] } events

end Race

/-- C5: over any complete settlement schedule of `n ≥ 1` inputs, `Any`
settles with the value of the first fulfillment it observes and makes no
further aggregate call for the later settlements; it rejects exactly
when every input rejects, and then with the single aggregate error
wrapping the collected per-index rejection errors. -/
theorem any_combinator_correct (T E : Type) (n : Nat)
    (events : List (Nat × Settle T E))
    (hn : 0 < n)
    (hlt : ∀ p ∈ events, p.1 < n)
    (hnd : (events.map Prod.fst).Nodup)
    (hfull : events.length = n) :
    (∀ pre j v post, events = pre ++ (j, Settle.ok v) :: post →
       (∀ p ∈ pre, p.2.isOk = false) →
       (Any.run n events).calls = [AggCall.res v]) ∧
    ((∀ p ∈ events, p.2.isOk = false) →
       (Any.run n events).calls = [AggCall.rej (AggErr.aggregate
          "all promises rejected" (Any.run n events).errors)] ∧
       ∀ i e, (i, Settle.err e) ∈ events →
         ((Any.run n events).errors)[i]? = some (some e)) ∧
    ((∃ er, AggCall.rej er ∈ (Any.run n events).calls) ↔
       ∀ p ∈ events, p.2.isOk = false) := by
  have hrun : Any.run n events = List.foldl Any.step (Any.init n) events := by
    rw [Any.run, if_neg (Nat.pos_iff_ne_zero.mp hn)]
  have hA : ∀ pre j v post, events = pre ++ (j, Settle.ok v) :: post →
      (∀ p ∈ pre, p.2.isOk = false) →
      (Any.run n events).calls = [AggCall.res v] := by
    intro pre j v post hdecomp hpre
    have hklen : pre.length + 1 + post.length = n := by
      rw [hdecomp] at hfull
      simp [List.length_append] at hfull
      omega
    have hpre_run := Any.any_noFire pre (Any.init n)
      ((n : Int) - (pre.length : Int)) hpre (by omega)
      (by show ((n : Nat) : Int) = (pre.length : Int) + ((n : Int) - (pre.length : Int)); ring)
    set s1 : Any.State T E := List.foldl Any.step (Any.init n) pre with hs1
    have hposrem : 0 < s1.remaining := by
      rw [hpre_run.2]
      omega
    have hstep : Any.step s1 (j, Settle.ok v) =
        { s1 with
          remaining := 0
          calls := s1.calls ++ [AggCall.res v] } := by
      simp only [Any.step]
      rw [if_pos hposrem]
    have hpost := Any.any_post post (Any.step s1 (j, Settle.ok v))
      (by rw [hstep])
    rw [hrun, hdecomp, List.foldl_append, List.foldl_cons, ← hs1, hpost.1, hstep,
      hpre_run.1]
    rfl
  have hB : (∀ p ∈ events, p.2.isOk = false) →
      (Any.run n events).calls = [AggCall.rej (AggErr.aggregate
         "all promises rejected" (Any.run n events).errors)] ∧
      ∀ i e, (i, Settle.err e) ∈ events →
        ((Any.run n events).errors)[i]? = some (some e) := by
    intro hall
    have hnil : events ≠ [] := by
      intro h
      rw [h] at hfull
      simp at hfull
      omega
    have hfire := Any.any_fire events (Any.init n) hall hnil
      (by show ((n : Nat) : Int) = (events.length : Int); rw [hfull])
    constructor
    · rw [hrun, hfire.1]
      rfl
    · intro i e hmem
      rw [hrun, Any.foldl_step_errors]
      exact foldl_slotUpd_get_mem Any.g events (Any.init (T := T) n).errors hnd
        (i, Settle.err e) hmem (some e) rfl
        (by simpa [Any.init] using hlt _ hmem)
  refine ⟨hA, hB, ?_, ?_⟩
  · rintro ⟨er, her⟩
    rcases settle_first_ok events with hall | ⟨pre, j, v, post, hdecomp, hpre⟩
    · exact hall
    · rw [hA pre j v post hdecomp hpre] at her
      simp at her
  · intro hall
    refine ⟨AggErr.aggregate "all promises rejected" (Any.run n events).errors, ?_⟩
    rw [(hB hall).1]
    exact List.mem_singleton_self _

/-- Witness for C5: two inputs, the first rejecting and the second
fulfilling; `Any` resolves with the fulfillment's value, and on the
all-rejecting schedule it rejects with the aggregate error holding both
errors at their indices. -/
theorem any_combinator_correct_witness :
    ((Any.run 2 [((0 : Nat), Settle.err "e1"),
        ((1 : Nat), (Settle.ok 5 : Settle Nat String))]).calls
      = [AggCall.res 5]) ∧
    ((Any.run 2 [((0 : Nat), Settle.err "e1"),
        ((1 : Nat), (Settle.err "e2" : Settle Nat String))]).calls
      = [AggCall.rej (AggErr.aggregate "all promises rejected"
          (Any.run 2 [((0 : Nat), Settle.err "e1"),
            ((1 : Nat), (Settle.err "e2" : Settle Nat String))]).errors)]) ∧
    ((Any.run 2 [((0 : Nat), Settle.err "e1"),
        ((1 : Nat), (Settle.err "e2" : Settle Nat String))]).errors)[0]?
      = some (some "e1") ∧
    ((Any.run 2 [((0 : Nat), Settle.err "e1"),
        ((1 : Nat), (Settle.err "e2" : Settle Nat String))]).errors)[1]?
      = some (some "e2") := by
  have h1 := any_combinator_correct Nat String 2 [(0, Settle.err "e1"), (1, Settle.ok 5)]
    (by decide) (by decide) (by decide) (by decide)
  have h2 := any_combinator_correct Nat String 2 [(0, Settle.err "e1"), (1, Settle.err "e2")]
    (by decide) (by decide) (by decide) (by decide)
  have hb := h2.2.1 (by decide)
  exact ⟨h1.1 [(0, Settle.err "e1")] 1 5 [] rfl (by decide),
    hb.1, hb.2 0 "e1" (by decide), hb.2 1 "e2" (by decide)⟩

/-- C6: over any complete settlement schedule of `n ≥ 1` inputs, in
whatever order the inputs settle, `AllSettled` makes exactly one call —
resolve with the array holding at each input's index the
`PromiseResult` of that input's settlement — and it can never reject on
any schedule. -/
theorem allsettled_combinator_correct (T E : Type) (n : Nat)
    (events : List (Nat × Settle T E))
    (hn : 0 < n)
    (hlt : ∀ p ∈ events, p.1 < n)
    (hnd : (events.map Prod.fst).Nodup)
    (hfull : events.length = n) :
    ((AllSettled.run n events).calls
      = [AggCall.res (AllSettled.run n events).results]) ∧
    (∀ i v, (i, Settle.ok v) ∈ events →
      ((AllSettled.run n events).results)[i]?
        = some { Value := some v, Error := none, Fulfilled := true }) ∧
    (∀ i e, (i, Settle.err e) ∈ events →
      ((AllSettled.run n events).results)[i]?
        = some { Value := none, Error := some e, Fulfilled := false }) ∧
    (∀ (evs : List (Nat × Settle T E)) (er : AggErr E),
      AggCall.rej er ∉ (AllSettled.run n evs).calls) := by
  have hrun : AllSettled.run n events = List.foldl AllSettled.step (AllSettled.init n) events := by
    rw [AllSettled.run, if_neg (Nat.pos_iff_ne_zero.mp hn)]
  have hnil : events ≠ [] := by
    intro h
    rw [h] at hfull
    simp at hfull
    omega
  have hfire := AllSettled.allSettled_fire events (AllSettled.init (T := T) (E := E) n) hnil
    (by show ((n : Nat) : Int) = (events.length : Int); rw [hfull])
  refine ⟨by rw [hrun, hfire.1]; rfl, ?_, ?_, ?_⟩
  · intro i v hmem
    rw [hrun, AllSettled.allSettled_foldl_results]
    exact foldl_slotUpd_get_mem AllSettled.g events
      (AllSettled.init (T := T) (E := E) n).results hnd
      (i, Settle.ok v) hmem _ rfl
      (by simpa [AllSettled.init] using hlt _ hmem)
  · intro i e hmem
    rw [hrun, AllSettled.allSettled_foldl_results]
    exact foldl_slotUpd_get_mem AllSettled.g events
      (AllSettled.init (T := T) (E := E) n).results hnd
      (i, Settle.err e) hmem _ rfl
      (by simpa [AllSettled.init] using hlt _ hmem)
  · intro evs
    rw [AllSettled.run, if_neg (Nat.pos_iff_ne_zero.mp hn)]
    exact AllSettled.foldl_step_no_rej evs (AllSettled.init n) (by simp [AllSettled.init])

/-- Witness for C6 at the spec's example: inputs `[ok 1, fail "e1"]`
settling in reverse order still resolve with the slots in input order. -/
theorem allsettled_combinator_correct_witness :
    ((AllSettled.run 2 [((1 : Nat), Settle.err "e1"),
        ((0 : Nat), (Settle.ok 1 : Settle Nat String))]).calls
      = [AggCall.res (AllSettled.run 2 [((1 : Nat), Settle.err "e1"),
          ((0 : Nat), (Settle.ok 1 : Settle Nat String))]).results]) ∧
    ((AllSettled.run 2 [((1 : Nat), Settle.err "e1"),
        ((0 : Nat), (Settle.ok 1 : Settle Nat String))]).results)[0]?
      = some { Value := some 1, Error := none, Fulfilled := true } ∧
    ((AllSettled.run 2 [((1 : Nat), Settle.err "e1"),
        ((0 : Nat), (Settle.ok 1 : Settle Nat String))]).results)[1]?
      = some { Value := none, Error := some "e1", Fulfilled := false } := by
  have h := allsettled_combinator_correct Nat String 2
    [(1, Settle.err "e1"), (0, Settle.ok 1)]
    (by decide) (by decide) (by decide) (by decide)
  exact ⟨h.1, h.2.1 0 1 (by decide), h.2.2.1 1 "e1" (by decide)⟩

/-- C7: with zero input promises, `All` and `AllSettled` resolve
immediately with the empty array, `Race` rejects immediately with the
"no promises to race" error and `Any` rejects immediately with the
"all promises rejected" error. -/
theorem zero_input_combinators (T E : Type) :
    (All.run (T := T) (E := E) 0 []).calls = [AggCall.res []] ∧
    (AllSettled.run (T := T) (E := E) 0 []).calls = [AggCall.res []] ∧
    (Race.run (T := T) (E := E) 0 []).calls
      = [AggCall.rej (AggErr.structural "no promises to race")] ∧
    (Any.run (T := T) (E := E) 0 []).calls
      = [AggCall.rej (AggErr.structural "all promises rejected")] :=
  ⟨rfl, rfl, rfl, rfl⟩
